import Mathlib

/-!
Shallow embedding of `src/tag_dupes.py` (Audiobookshelf duplicate tagger &
pruner).  Python text is modelled as `List Char` (a list of Unicode code
points), JSON absence/null as `Option`, and the effectful prune phase as a
pure function returning the list of external calls it issues.
-/

namespace TagDupes

/-- Python strings are modelled as lists of code points. -/
abbrev Str := List Char

/-- Convenience: convert a Lean string literal to the `List Char` model. -/
def str (s : String) : Str := s.data

/-- Models Python `str.split()` whitespace for the code points this
development reasons about: exact on ASCII (`\t \n \x0b \x0c \r`,
`\x1c`–`\x1f`, space) plus the common non-ASCII whitespace code points. -/
def pyIsSpace (c : Char) : Bool :=
  c.toNat = 9 ∨ c.toNat = 10 ∨ c.toNat = 11 ∨ c.toNat = 12 ∨ c.toNat = 13 ∨
  c.toNat = 28 ∨ c.toNat = 29 ∨ c.toNat = 30 ∨ c.toNat = 31 ∨ c.toNat = 32 ∨
  c.toNat = 0x85 ∨ c.toNat = 0xa0 ∨ c.toNat = 0x1680 ∨
  (0x2000 ≤ c.toNat ∧ c.toNat ≤ 0x200a) ∨
  c.toNat = 0x2028 ∨ c.toNat = 0x2029 ∨ c.toNat = 0x205f ∨ c.toNat = 0x3000

/-- Models Python `str.lower`, exact on the ASCII range (`A`–`Z` map to
`a`–`z`, everything else is fixed); identity on the non-ASCII code points
used in this development (none of them has a lowercase mapping). -/
def pyLower (c : Char) : Char :=
  if 65 ≤ c.toNat ∧ c.toNat ≤ 90 then Char.ofNat (c.toNat + 32) else c

/-- Models `unicodedata.normalize("NFKD", ·)` followed by
`.encode("ascii","ignore")`, applied code point by code point.  Exact on
ASCII (no ASCII code point has a decomposition, and the ascii encoding keeps
it) and on the tabulated non-ASCII code points (per UnicodeData.txt, after
dropping the non-ASCII parts of the decomposition).  Remaining non-ASCII
code points are modelled as contributing nothing; the theorems below only
evaluate this function on ASCII and on the tabulated code points. -/
def nfkdAscii (c : Char) : Str :=
  if c.toNat < 128 then [c]
  else if c = '´' then [' ']        -- ACUTE ACCENT, NFKD = <compat> 0020 0301
  else if c = 'é' then ['e']        -- é, NFKD = 0065 0301
  else if c = 'è' then ['e']        -- è, NFKD = 0065 0300
  else if c = 'á' then ['a']        -- á, NFKD = 0061 0301
  else if c = 'ü' then ['u']        -- ü, NFKD = 0075 0308
  else []

/-- Python `str.lower` lifted to strings. -/
def lowerStr (l : Str) : Str := l.map pyLower

/-- Accumulator-based worker for `str.split()`: `acc` is the reversed
current run of non-whitespace code points. -/
def splitWsAux : Str → Str → List Str
  | [], acc => if acc = [] then [] else [acc.reverse]
  | c :: rest, acc =>
      if pyIsSpace c then
        (if acc = [] then splitWsAux rest [] else acc.reverse :: splitWsAux rest [])
      else splitWsAux rest (c :: acc)

/-- Models Python `s.split()` (split on whitespace runs, no empty words). -/
def splitWs (l : Str) : List Str := splitWsAux l []

/-- Models Python `" ".join(words)`. -/
def joinSpace : List Str → Str
  | [] => []
  | [w] => w
  | w :: ws => w ++ ' ' :: joinSpace ws

/-- `norm` (tag_dupes.py:33-38).  `None` input yields the empty string;
otherwise collapse whitespace runs via `" ".join(s.split())`, lowercase
unless case-sensitive, then NFKD-decompose and drop non-ASCII. -/
def norm (s : Option Str) (case_sensitive : Bool) : Str :=
  match s with
  | none => []
  | some s =>
      let s := joinSpace (splitWs s)
      let s := if case_sensitive then s else lowerStr s
      (s.map nfkdAscii).flatten

/-- `media.metadata` fields used by the grouper (absent keys are `none`;
the code treats absent and JSON-null identically via `or` chains). -/
structure Meta where
  title : Option Str := none
  titleIgnorePrefix : Option Str := none
  authorName : Option Str := none
  seriesName : Option Str := none
deriving DecidableEq

/-- One entry of `media.tracks`. -/
structure Track where
  mimeType : Option Str := none
  title : Option Str := none
deriving DecidableEq

/-- `media` of an item.  The source always accesses it through
`(it.get("media") or {})`, so an absent media dict is indistinguishable from
the record with every field absent. -/
structure Media where
  metadata : Meta := {}
  tracks : List Track := []
  addedAt : Option Int := none
  tags : Option (List Str) := none
deriving DecidableEq

/-- `libraryFiles[i].metadata` (accessed through `lf.get("metadata") or {}`). -/
structure LFMeta where
  ext : Option Str := none
  path : Option Str := none
  relPath : Option Str := none
deriving DecidableEq

/-- One entry of `libraryFiles`. -/
structure LibFile where
  fileType : Option Str := none
  mimeType : Option Str := none
  path : Option Str := none
  relPath : Option Str := none
  metadata : LFMeta := {}
deriving DecidableEq

/-- A catalog item as used by the script. -/
structure Item where
  id : Str := []
  path : Option Str := none
  addedAt : Option Int := none
  tags : Option (List Str) := none
  media : Media := {}
  libraryFiles : List LibFile := []
deriving DecidableEq

/-- `title_for_group` (tag_dupes.py:96-99): prefer a truthy
`titleIgnorePrefix` when enabled, else `title or ""`, then normalize. -/
def title_for_group (it : Item) ( use_ignore_prefix case_sensitive : Bool) : Str :=
  let md := it.media.metadata
  let t : Str :=
    if use_ignore_prefix ∧ md.titleIgnorePrefix ≠ none ∧ md.titleIgnorePrefix ≠ some [] then
      md.titleIgnorePrefix.getD []
    else md.title.getD []
  norm (some t) case_sensitive

/-- `author_for_group` (tag_dupes.py:101-102). -/
def author_for_group (it : Item) (case_sensitive : Bool) : Str :=
  norm (some (it.media.metadata.authorName.getD [])) case_sensitive

/-- `series_for_group` (tag_dupes.py:104-105). -/
def series_for_group (it : Item) (case_sensitive : Bool) : Str :=
  norm (some (it.media.metadata.seriesName.getD [])) case_sensitive

/-- `make_key` (tag_dupes.py:107-112); the composite keys join the parts
with the literal `"||"`. -/
def make_key (it : Item) (by_ : Str) ( use_ignore_prefix case_sensitive : Bool) : Str :=
  let t := title_for_group it use_ignore_prefix case_sensitive
  if by_ = str "title" then t
  else if by_ = str "title+author" then
    t ++ '|' :: '|' :: author_for_group it case_sensitive
  else if by_ = str "title+series" then
    t ++ '|' :: '|' :: series_for_group it case_sensitive
  else t

/-- `current_tags` (tag_dupes.py:114-116): `media.tags` when it is not
null/absent, else the item-level `tags`, else `[]`. -/
def current_tags (it : Item) : List Str :=
  match it.media.tags with
  | some ts => ts
  | none => it.tags.getD []

/-- Python falsy-`or` on an optional integer: `None` and `0` both fall
through to the default. -/
def orFalsyInt (o : Option Int) (d : Int) : Int :=
  match o with
  | none => d
  | some v => if v = 0 then d else v

/-- `item_added_at` (tag_dupes.py:118-119):
`int(it.get("addedAt") or media.get("addedAt") or 0)`. -/
def item_added_at (it : Item) : Int :=
  orFalsyInt it.addedAt (orFalsyInt it.media.addedAt 0)

/-- Stable insertion into an ascending-sorted list: `x` goes before the
first element it compares `le` to, hence before later equal elements. -/
def insortBy (le : α → α → Bool) (x : α) : List α → List α
  | [] => [x]
  | y :: ys => if le x y then x :: y :: ys else y :: insortBy le x ys

/-- Stable insertion sort; models the contract of Python's stable `sorted`. -/
def isortBy (le : α → α → Bool) : List α → List α
  | [] => []
  | x :: xs => insortBy le x (isortBy le xs)

/-- `choose_keeper` (tag_dupes.py:121-122): head of the list stably sorted
by ascending `item_added_at` (Python raises on an empty list; here `none`). -/
def choose_keeper (items : List Item) : Option Item :=
  (isortBy (fun a b => item_added_at a ≤ item_added_at b) items).head?

/-- Python falsy-`or` chain `a or b or ""` on optional strings: `None` and
`""` both fall through. -/
def orFalsyStr (a b : Option Str) : Str :=
  match a with
  | some s => if s = [] then b.getD [] else s
  | none => b.getD []

/-- Python `"needle" in haystack` (substring containment). -/
def isSubstr (needle haystack : Str) : Bool :=
  (List.range (haystack.length + 1)).any fun i => needle.isPrefixOf (haystack.drop i)

/-- `s.split("/", 1)[1]`: everything after the first `/` (the callers guard
on a `/` being present). -/
def afterFirstSlash (l : Str) : Str :=
  match l.dropWhile (fun c => c ≠ '/') with
  | [] => []
  | _ :: rest => rest

/-- `s.rsplit(".", 1)[-1]`: everything after the last `.` (the callers guard
on a `.` being present). -/
def afterLastDot (l : Str) : Str :=
  (l.reverse.takeWhile (fun c => c ≠ '.')).reverse

/-- `s.lstrip(".")`. -/
def lstripDots (l : Str) : Str := l.dropWhile (fun c => c = '.')

/-- Format candidates contributed by one `libraryFiles` entry
(tag_dupes.py:126-138): non-audio entries contribute nothing; audio entries
contribute the lowercased dot-stripped `metadata.ext` if truthy, the
MIME subtype if the lowercased MIME type contains `"audio/"`, and the
extension after the last dot of each of `path`/`relPath` (file-level value
falling back to `metadata`). -/
def lf_candidates (lf : LibFile) : List Str :=
  if lowerStr (lf.fileType.getD []) = str "audio" then
    (let e := lstripDots (lowerStr (lf.metadata.ext.getD []))
     if e = [] then [] else [e]) ++
    (let mt := lowerStr (lf.mimeType.getD [])
     if isSubstr (str "audio/") mt then [afterFirstSlash mt] else []) ++
    (let p := orFalsyStr lf.path lf.metadata.path
     if '.' ∈ p then [afterLastDot (lowerStr p)] else []) ++
    (let p := orFalsyStr lf.relPath lf.metadata.relPath
     if '.' ∈ p then [afterLastDot (lowerStr p)] else [])
  else []

/-- Format candidates contributed by one `media.tracks` entry
(tag_dupes.py:140-146). -/
def track_candidates (tr : Track) : List Str :=
  (let mt := lowerStr (tr.mimeType.getD [])
   if isSubstr (str "audio/") mt then [afterFirstSlash mt] else []) ++
  (let ti := lowerStr (tr.title.getD [])
   if '.' ∈ ti then [afterLastDot ti] else [])

/-- The raw candidate list `fmts` of `item_formats` (tag_dupes.py:124-146):
library-file candidates, falling back to track candidates when empty. -/
def fmt_candidates (it : Item) : List Str :=
  let fromFiles := (it.libraryFiles.map lf_candidates).flatten
  if fromFiles = [] then (it.media.tracks.map track_candidates).flatten
  else fromFiles

/-- The `normed` step of `item_formats` (tag_dupes.py:147-150): unify
`m4a`/`mp4` into `m4a`. -/
def norm_fmt (f : Str) : Str :=
  if f = str "m4a" ∨ f = str "mp4" then str "m4a" else f

/-- The seen-set deduplication of `item_formats` (tag_dupes.py:151-154):
keep the first occurrence of each value. -/
def dedupAux : List Str → List Str → List Str
  | [], _ => []
  | x :: xs, seen => if x ∈ seen then dedupAux xs seen else x :: dedupAux xs (x :: seen)

/-- Deduplicate preserving first-occurrence order. -/
def dedupFirst (l : List Str) : List Str := dedupAux l []

/-- `item_formats` (tag_dupes.py:124-155). -/
def item_formats (it : Item) : List Str :=
  let out := dedupFirst ((fmt_candidates it).map norm_fmt)
  if out = [] then [str "unknown"] else out

/-- `Counter(l).most_common(1)`: `Counter` iterates keys in first-encounter
order and `most_common` sorts stably by descending count, so the first
entry is the first-encountered value whose count is maximal.  Returns
`none` on an empty list (where Python would raise `IndexError`). -/
def most_common1 (l : List Str) : Option Str :=
  (dedupFirst l).foldl
    (fun acc x =>
      match acc with
      | none => some x
      | some a => if l.count a < l.count x then some x else acc)
    none

/-- `dominant_format` (tag_dupes.py:157-159).  The `none` branch is
unreachable because `item_formats` never returns an empty list (see
`item_formats_ne_nil`); on an empty list the source would raise. -/
def dominant_format (it : Item) : Str :=
  (most_common1 (item_formats it)).getD []

/-- Append a value to the bucket of key `k` in an insertion-ordered
association list, creating the bucket at the end if absent — the behaviour
of `defaultdict(list)` under `groups[k].append(v)` with Python's
insertion-ordered dicts. -/
def addToGroups (gs : List (Str × List Item)) (k : Str) (it : Item) :
    List (Str × List Item) :=
  match gs with
  | [] => [(k, [it])]
  | (k0, l) :: rest =>
      if k0 = k then (k0, l ++ [it]) :: rest
      else (k0, l) :: addToGroups rest k it

/-- Collect a list of (key, value) pairs into insertion-ordered buckets. -/
def groupPairs (pairs : List (Str × Item)) : List (Str × List Item) :=
  pairs.foldl (fun gs p => addToGroups gs p.1 p.2) []

/-- The grouping phase of `main` (tag_dupes.py:449-452): bucket the items
of a library by `make_key`, skipping items whose key is the empty string. -/
def group_phase (items : List Item) (by_ : Str) ( use_ignore_prefix case_sensitive : Bool) :
    List (Str × List Item) :=
  groupPairs (items.filterMap fun it =>
    let k := make_key it by_ use_ignore_prefix case_sensitive
    if k = [] then none else some (k, it))

/-- The duplicate groups surfaced to the rest of `main`
(tag_dupes.py:454-455): buckets with at most one member are skipped. -/
def dup_groups (items : List Item) (by_ : Str) ( use_ignore_prefix case_sensitive : Bool) :
    List (Str × List Item) :=
  (group_phase items by_ use_ignore_prefix case_sensitive).filter
    (fun g => ¬ g.2.length ≤ 1)

/-- The per-group format partition of the prune phase
(tag_dupes.py:494-496): `by_fmt[dominant_format(it)].append(it)`. -/
def by_fmt_partition (group : List Item) : List (Str × List Item) :=
  groupPairs (group.map fun it => (dominant_format it, it))

/-- Python `str.strip()` (both-ends whitespace strip). -/
def pyStrip (l : Str) : Str :=
  ((l.dropWhile pyIsSpace).reverse.dropWhile pyIsSpace).reverse

/-- Models `posixpath.dirname`: everything up to the last `/`, with
trailing slashes stripped unless the head is all slashes. -/
def dirname (p : Str) : Str :=
  let after := p.reverse.takeWhile (fun c => c ≠ '/')
  if after.length = p.length then []
  else
    let head := p.take (p.length - after.length)
    if head.any (fun c => c ≠ '/') then
      (head.reverse.dropWhile (fun c => c = '/')).reverse
    else head

/-- Worker for splitting a path at `/` (empty segments dropped, as
`posixpath.commonpath` does after `split(sep)`). -/
def splitSlashAux : Str → Str → List Str
  | [], acc => if acc = [] then [] else [acc.reverse]
  | c :: rest, acc =>
      if c = '/' then
        (if acc = [] then splitSlashAux rest [] else acc.reverse :: splitSlashAux rest [])
      else splitSlashAux rest (c :: acc)

/-- Path components for `commonpath`: non-empty segments other than `.`. -/
def pathComps (p : Str) : List Str :=
  (splitSlashAux p []).filter (fun c => c ≠ str ".")

/-- Longest common prefix of two component lists. -/
def commonPrefix : List Str → List Str → List Str
  | a :: as, b :: bs => if a = b then a :: commonPrefix as bs else []
  | _, _ => []

/-- `"/".join(components)`. -/
def joinSlash : List Str → Str
  | [] => []
  | [w] => w
  | w :: ws => w ++ '/' :: joinSlash ws

/-- Models `os.path.commonpath` for POSIX paths: `none` models the
`ValueError` raised on an empty list or a mix of absolute and relative
paths; otherwise the longest common component prefix of all the paths,
rebuilt as a path. -/
def commonpath (ps : List Str) : Option Str :=
  match ps with
  | [] => none
  | p0 :: rest =>
    let isAbs := fun (p : Str) => p.head? = some '/'
    if (p0 :: rest).all isAbs ∨ (p0 :: rest).all (fun p => !(isAbs p)) then
      let common := rest.foldl (fun acc p => commonPrefix acc (pathComps p)) (pathComps p0)
      some ((if isAbs p0 then ['/'] else []) ++ joinSlash common)
    else none

/-- `_item_folder_from_files` (tag_dupes.py:161-177): prefer a truthy
item-level `path`; otherwise collect `dirname` of every truthy
`path`/`relPath` of the audio library files (file-level value falling back
to `metadata`); `none` when no path information exists; otherwise the
common path, falling back to the first collected directory when
`commonpath` raises. -/
def item_folder_from_files (it : Item) : Option Str :=
  let fallback :=
    let paths := (it.libraryFiles.map fun lf =>
      if lowerStr (lf.fileType.getD []) = str "audio" then
        (match orFalsyStr lf.path lf.metadata.path with
         | [] => []
         | fp => [dirname fp]) ++
        (match orFalsyStr lf.relPath lf.metadata.relPath with
         | [] => []
         | fp => [dirname fp])
      else []).flatten
    match paths with
    | [] => none
    | p1 :: _ =>
        match commonpath paths with
        | some c => some c
        | none => some p1
  match it.path with
  | some p => if pyStrip p = [] then fallback else some p
  | none => fallback

/-- `s.lstrip("/\\")`. -/
def lstripSeps (l : Str) : Str := l.dropWhile (fun c => c = '/' ∨ c = '\\')

/-- Models `posixpath.join(a, b)` for the call sites of this script (the
second argument has been stripped of leading separators). -/
def osJoin (a b : Str) : Str :=
  if b.head? = some '/' then b
  else if a = [] then b
  else if a.getLast? = some '/' then a ++ b
  else a ++ '/' :: b

/-- `_apply_path_map` loop (tag_dupes.py:181-185): first matching source
prefix wins. -/
def apply_path_map_loop (p : Str) : List (Str × Str) → Str
  | [] => p
  | (src, dst) :: rest =>
      if src.isPrefixOf p then osJoin dst (lstripSeps (p.drop src.length))
      else apply_path_map_loop p rest

/-- `_apply_path_map` (tag_dupes.py:179-185). -/
def apply_path_map (p : Str) (path_map : List (Str × Str)) : Str :=
  if p = [] then p else apply_path_map_loop p path_map

/-- `_is_within_roots` (tag_dupes.py:187-200): `True` unconditionally when
`roots` is empty; otherwise the path and each root are canonicalized with
`os.path.realpath` (a run-time filesystem function, passed here as a
parameter) and the path is accepted when `commonpath` of the pair equals
the canonical root.  Failures (`commonpath = none`) skip that root. -/
def is_within_roots (realpath : Str → Str) (p : Str) (roots : List Str) : Bool :=
  if roots = [] then true
  else
    roots.any fun r =>
      commonpath [realpath p, realpath r] = some (realpath r)

/-- Python string `<` (lexicographic by code point). -/
def strLt : Str → Str → Bool
  | [], [] => false
  | [], _ :: _ => true
  | _ :: _, [] => false
  | a :: as, b :: bs =>
      if a.toNat < b.toNat then true
      else if b.toNat < a.toNat then false
      else strLt as bs

/-- Python string `≤`, used to model `sorted` on strings. -/
def strLe (a b : Str) : Bool := !(strLt b a)

/-- The validated `delete_files` option (tag_dupes.py:295-296 forces one of
`"off"`, `"trash"`, `"remove"`). -/
inductive DeleteMode
  | off
  | trash
  | remove
deriving DecidableEq

/-- The resolved options consumed by the prune phase (a slice of the
dictionary built by `resolve_options`, tag_dupes.py:310-320). -/
structure Opts where
  apply : Bool
  assume_yes : Bool
  delete_files : DeleteMode
  trash_dir : Str
  allow_roots : List Str
  path_map : List (Str × Str)
  preferred_formats : List Str
  clean_tags_after_prune : Bool
  tag : Str

/-- The run-time environment of the prune phase: `realpath` models
`os.path.realpath`, `ask` models the blocking `ask_choice` console read
(taking the offered choices and the default), and the three `Ok` oracles
model the success/failure outcome of `shutil.move`-based trashing,
permanent deletion, and the remote catalog delete. -/
structure Env where
  realpath : Str → Str
  ask : List Str → Option Str → Str
  moveOk : Str → Bool
  removeOk : Str → Bool
  absDeleteOk : Str → Bool

/-- The external calls the prune phase can issue.  The first four are the
real (destructive or remote) calls with their arguments; the `dryRun`
constructors record the corresponding simulate-mode outcomes; the last
three record the non-destructive log-only dispositions. -/
inductive Effect
  | moveToTrash (src trash_root : Str) (roots : List Str)
  | removePath (src : Str)
  | absDelete (id : Str)
  | batchUpdateTags (updates : List (Str × List Str))
  | dryRunMove (p : Str)
  | dryRunDelete (p : Str)
  | dryRunAbsDelete (id : Str)
  | dryRunCleanTags (ids : List Str)
  | infoLeaveFiles (p : Str)
  | skipOutsideRoots (p : Str)
  | warnNoFolder (id : Str)
deriving DecidableEq

/-- Whether an effect is a real external mutation (file move, file delete,
catalog delete or batch tag update), as opposed to a recorded dry-run
outcome or a log line. -/
def isRealEffect : Effect → Bool
  | .moveToTrash _ _ _ => true
  | .removePath _ => true
  | .absDelete _ => true
  | .batchUpdateTags _ => true
  | _ => false

/-- The file-operation body of the prune loop for one removal candidate
(tag_dupes.py:522-556), returning the issued effects and the number of
`stats["errors"]` increments. -/
def prune_file_op (opts : Opts) (env : Env) (it : Item) : List Effect × Nat :=
  match item_folder_from_files it with
  | none => ([.warnNoFolder it.id], 1)
  | some folder =>
      let mapped := apply_path_map folder opts.path_map
      if opts.delete_files = .off then ([.infoLeaveFiles mapped], 0)
      else if ¬ is_within_roots env.realpath mapped opts.allow_roots then
        ([.skipOutsideRoots mapped], 0)
      else if opts.apply then
        match opts.delete_files with
        | .trash =>
            ([.moveToTrash mapped opts.trash_dir opts.allow_roots],
             if env.moveOk mapped then 0 else 1)
        | .remove =>
            ([.removePath mapped], if env.removeOk mapped then 0 else 1)
        | .off => ([], 0)
      else
        match opts.delete_files with
        | .trash => ([.dryRunMove mapped], 0)
        | .remove => ([.dryRunDelete mapped], 0)
        | .off => ([], 0)

/-- The catalog-deletion body of the prune loop for one removal candidate
(tag_dupes.py:558-566). -/
def prune_abs_delete (opts : Opts) (env : Env) (it : Item) : List Effect × Nat :=
  if opts.apply then
    ([.absDelete it.id], if env.absDeleteOk it.id then 0 else 1)
  else ([.dryRunAbsDelete it.id], 0)

/-- The post-prune tag cleanup for the surviving keeper
(tag_dupes.py:568-579). -/
def prune_clean_tags (opts : Opts) (keeper : Item) : List Effect :=
  if opts.clean_tags_after_prune ∧ opts.assume_yes then
    let updates := [(keeper.id, (current_tags keeper).filter (fun t => t ≠ opts.tag))]
    if opts.apply then [.batchUpdateTags updates] else [.dryRunCleanTags [keeper.id]]
  else []

/-- Truthiness of `default_fmt` in `if opts["assume_yes"] and default_fmt:`
(tag_dupes.py:502): non-`None` and non-empty. -/
def truthyFmt : Option Str → Bool
  | none => false
  | some f => f ≠ []

/-- The retention format chosen for a group (tag_dupes.py:498-509):
`fmts = sorted(by_fmt.keys())`; the default is the first preferred format
present in the group, else the lexicographically first available format;
non-interactive mode takes a truthy default, otherwise the console is
asked (the answer is modelled by `env.ask`, unconstrained — `ask_choice`
guarantees membership in the offered list, which the theorems below do not
rely on). -/
def prune_chosen_fmt (opts : Opts) (env : Env) (preferred : List Str)
    (group : List Item) : Str :=
  let by_fmt := by_fmt_partition group
  let fmts := isortBy strLe (by_fmt.map Prod.fst)
  let default_fmt : Option Str :=
    match preferred.find? (fun f => (by_fmt.map Prod.fst).contains f) with
    | some f => some f
    | none => fmts.head?
  if opts.assume_yes ∧ truthyFmt default_fmt then default_fmt.getD []
  else env.ask (if fmts = [] then [str "unknown"] else fmts) default_fmt

/-- `keep_list = by_fmt.get(chosen_fmt, [])` (tag_dupes.py:512). -/
def prune_keep_list (opts : Opts) (env : Env) (preferred : List Str)
    (group : List Item) : List Item :=
  match (by_fmt_partition group).find?
      (fun p => p.1 = prune_chosen_fmt opts env preferred group) with
  | some p => p.2
  | none => []

/-- The per-group keeper of the prune phase (tag_dupes.py:513-516): `none`
exactly when the chosen format's bucket is empty (the `continue` branch). -/
def prune_keeper (opts : Opts) (env : Env) (preferred : List Str)
    (group : List Item) : Option Item :=
  choose_keeper (prune_keep_list opts env preferred group)

/-- `to_remove = [it for it in group if it["id"] != keep_id]`
(tag_dupes.py:518), empty when the group was left unresolved. -/
def prune_removals (opts : Opts) (env : Env) (preferred : List Str)
    (group : List Item) : List Item :=
  match prune_keeper opts env preferred group with
  | none => []
  | some keeper => group.filter (fun it => it.id ≠ keeper.id)

/-- The prune processing of one duplicate group (tag_dupes.py:493-579):
the file-operation loop over the removal candidates, then the
catalog-deletion loop, then the tag cleanup; paired with the number of
`stats["errors"]` increments. -/
def prune_group (opts : Opts) (env : Env) (preferred : List Str)
    (group : List Item) : List Effect × Nat :=
  match prune_keeper opts env preferred group with
  | none => ([], 0)
  | some keeper =>
      let to_remove := group.filter (fun it => it.id ≠ keeper.id)
      let fileRes := to_remove.map (prune_file_op opts env)
      let absRes := to_remove.map (prune_abs_delete opts env)
      ((fileRes.map Prod.fst).flatten ++ (absRes.map Prod.fst).flatten ++
         prune_clean_tags opts keeper,
       (fileRes.map Prod.snd).sum + (absRes.map Prod.snd).sum)

/-- The whole prune phase (tag_dupes.py:486-579) over the collected
duplicate groups: `preferred = opts["preferred_formats"] or ["m4b","mp3"]`,
then each group is processed in order. -/
def prune_phase (opts : Opts) (env : Env) (groups : List (List Item)) :
    List Effect × Nat :=
  let preferred :=
    if opts.preferred_formats = [] then [str "m4b", str "mp3"]
    else opts.preferred_formats
  ((groups.map fun g => (prune_group opts env preferred g).1).flatten,
   (groups.map fun g => (prune_group opts env preferred g).2).sum)

/-- First element of a list attaining the minimal key — the specification
of "earliest minimum" used to characterize `choose_keeper`. -/
def firstMinBy (k : α → Int) : List α → Option α
  | [] => none
  | x :: xs =>
      match firstMinBy k xs with
      | none => some x
      | some m => some (if k x ≤ k m then x else m)

/-! Concrete inputs used by the witnesses and counterexamples below. -/

/-- A kept mp3 copy with a resolvable folder. -/
def iA : Item :=
  { id := str "A", addedAt := some 1, path := some (str "/data/a"),
    libraryFiles := [{ fileType := some (str "audio"), metadata := { ext := some (str "mp3") } }] }

/-- A removal candidate (same format, later addedAt) with a resolvable folder. -/
def iB : Item :=
  { id := str "B", addedAt := some 2, path := some (str "/data/b"),
    libraryFiles := [{ fileType := some (str "audio"), metadata := { ext := some (str "mp3") } }] }

/-- A removal candidate with no path information anywhere: its folder
cannot be resolved. -/
def iC : Item :=
  { id := str "C", addedAt := some 3,
    libraryFiles := [{ fileType := some (str "audio"), metadata := { ext := some (str "mp3") } }] }

/-- Apply-mode options with a destructive file action and an empty
allow-root list. -/
def opts1 : Opts :=
  { apply := true, assume_yes := true, delete_files := .trash,
    trash_dir := str "/trash", allow_roots := [], path_map := [],
    preferred_formats := [str "mp3"], clean_tags_after_prune := false, tag := str "Duplicate" }

/-- Simulate-mode options (apply disabled) with a destructive file action
configured. -/
def opts2 : Opts :=
  { apply := false, assume_yes := true, delete_files := .trash,
    trash_dir := str "/trash", allow_roots := [str "/data"], path_map := [],
    preferred_formats := [str "mp3"], clean_tags_after_prune := true, tag := str "Duplicate" }

/-- A concrete environment: `realpath` is the identity (no symlinks), the
console always answers `unknown`, every operation succeeds. -/
def env1 : Env :=
  { realpath := id, ask := fun _ _ => str "unknown",
    moveOk := fun _ => true, removeOk := fun _ => true, absDeleteOk := fun _ => true }

/-- Title `a||b`, author `c`: collides with `i5b` under `title+author`. -/
def i5a : Item :=
  { id := str "P", media := { metadata := { title := some (str "a||b"), authorName := some (str "c") } } }

/-- Title `a`, author `b||c`: collides with `i5a` under `title+author`. -/
def i5b : Item :=
  { id := str "Q", media := { metadata := { title := some (str "a"), authorName := some (str "b||c") } } }

/-- Pipe-free title and author, for the amended injectivity witness. -/
def i5c : Item :=
  { id := str "R", media := { metadata := { title := some (str "Dune"), authorName := some (str "Herbert") } } }

/-- Same normalized title as `i5c`, different author. -/
def i5d : Item :=
  { id := str "S", media := { metadata := { title := some (str "dune"), authorName := some (str "Other") } } }

/-- An item with an uppercase `.MP4` extension (classifies as `m4a`). -/
def iMp4 : Item :=
  { id := str "X",
    libraryFiles := [{ fileType := some (str "audio"), metadata := { ext := some (str ".MP4") } }] }

/-- An item with no library files, no tracks and no path information. -/
def iEmpty : Item := { id := str "E" }

/-- Duplicate pair member (same title as `i7b`). -/
def i7a : Item :=
  { id := str "G1", addedAt := some 30,
    media := { metadata := { title := some (str "Same Book") } } }

/-- Duplicate pair member (same title as `i7a`). -/
def i7b : Item :=
  { id := str "G2", addedAt := some 10,
    media := { metadata := { title := some (str "same  book") } } }

/-- addedAt 20, for the keeper-selection witness. -/
def i7c : Item :=
  { id := str "G3", addedAt := some 20,
    media := { metadata := { title := some (str "Other Book") } } }

/-- An item with `addedAt` absent at both the item and the media level. -/
def iNoAdded : Item :=
  { id := str "M", media := { metadata := { title := some (str "Same Book") } } }

/-! ### The stable sort and the keeper selector -/

lemma insortBy_ne_nil (le : α → α → Bool) (x : α) (s : List α) :
    insortBy le x s ≠ [] := by
  cases s with
  | nil => simp [insortBy]
  | cons y ys =>
      simp only [insortBy]
      split <;> simp

lemma isortBy_eq_nil_iff (le : α → α → Bool) (l : List α) :
    isortBy le l = [] ↔ l = [] := by
  cases l with
  | nil => simp [isortBy]
  | cons x xs => simp [isortBy, insortBy_ne_nil]

lemma insortBy_head (le : α → α → Bool) (x y : α) (ys : List α) :
    (insortBy le x (y :: ys)).head? = some (if le x y then x else y) := by
  simp only [insortBy]
  split <;> simp

lemma isortBy_head_firstMinBy (k : α → Int) (l : List α) :
    (isortBy (fun a b => k a ≤ k b) l).head? = firstMinBy k l := by
  induction l with
  | nil => rfl
  | cons x xs ih =>
      simp only [isortBy, firstMinBy]
      cases hxs : isortBy (fun a b => decide (k a ≤ k b)) xs with
      | nil =>
          have : xs = [] := (isortBy_eq_nil_iff _ _).1 hxs
          subst this
          simp [insortBy, firstMinBy]
      | cons y ys =>
          rw [hxs] at ih
          rw [insortBy_head, ← ih]
          simp only [List.head?_cons]
          by_cases h : k x ≤ k y <;> simp [h]

lemma choose_keeper_eq_firstMinBy (items : List Item) :
    choose_keeper items = firstMinBy item_added_at items := by
  unfold choose_keeper
  exact isortBy_head_firstMinBy item_added_at items

lemma firstMinBy_eq_none (k : α → Int) (l : List α) :
    firstMinBy k l = none ↔ l = [] := by
  cases l with
  | nil => simp [firstMinBy]
  | cons x xs =>
      cases h : firstMinBy k xs <;> simp [firstMinBy, h]

lemma firstMinBy_mem (k : α → Int) (l : List α) (m : α)
    (hm : firstMinBy k l = some m) : m ∈ l := by
  induction l generalizing m with
  | nil => simp [firstMinBy] at hm
  | cons x xs ih =>
      simp only [firstMinBy] at hm
      cases h : firstMinBy k xs with
      | none =>
          rw [h] at hm
          simp at hm
          simp [hm]
      | some m0 =>
          rw [h] at hm
          simp only [Option.some.injEq] at hm
          by_cases hle : k x ≤ k m0
          · rw [if_pos hle] at hm; simp [hm]
          · rw [if_neg hle] at hm
            exact List.mem_cons_of_mem x (ih m (by rw [h, hm]))

lemma firstMinBy_le (k : α → Int) (l : List α) (m : α)
    (hm : firstMinBy k l = some m) : ∀ a ∈ l, k m ≤ k a := by
  induction l generalizing m with
  | nil => simp [firstMinBy] at hm
  | cons x xs ih =>
      simp only [firstMinBy] at hm
      intro a ha
      rcases List.mem_cons.1 ha with h2 | h2
      · cases h : firstMinBy k xs with
        | none =>
            rw [h] at hm
            simp at hm
            rw [h2, ← hm]
        | some m0 =>
            rw [h] at hm
            simp only [Option.some.injEq] at hm
            rw [h2]
            by_cases hle : k x ≤ k m0
            · rw [if_pos hle] at hm
              rw [← hm]
            · rw [if_neg hle] at hm
              rw [← hm]
              · exact le_of_lt (lt_of_not_le hle)
      · cases h : firstMinBy k xs with
        | none =>
            rw [(firstMinBy_eq_none _ _).1 h] at h2
            exact absurd h2 (List.not_mem_nil a)
        | some m0 =>
            rw [h] at hm
            simp only [Option.some.injEq] at hm
            have hm0 := ih m0 h a h2
            by_cases hle : k x ≤ k m0
            · rw [if_pos hle] at hm
              rw [← hm]
              exact le_trans hle hm0
            · rw [if_neg hle] at hm
              rw [← hm]
              exact hm0

lemma firstMinBy_first (k : α → Int) (l : List α) (m : α)
    (hm : firstMinBy k l = some m) :
    ∃ i, ∃ hi : i < l.length, l.get ⟨i, hi⟩ = m ∧
      ∀ j, ∀ hj : j < l.length, j < i → k m < k (l.get ⟨j, hj⟩) := by
  induction l generalizing m with
  | nil => simp [firstMinBy] at hm
  | cons x xs ih =>
      simp only [firstMinBy] at hm
      cases h : firstMinBy k xs with
      | none =>
          rw [h] at hm
          simp at hm
          subst hm
          exact ⟨0, by simp, rfl, fun j hj hj0 => absurd hj0 (Nat.not_lt_zero j)⟩
      | some m0 =>
          rw [h] at hm
          simp only [Option.some.injEq] at hm
          by_cases hle : k x ≤ k m0
          · rw [if_pos hle] at hm
            subst hm
            exact ⟨0, by simp, rfl, fun j hj hj0 => absurd hj0 (Nat.not_lt_zero j)⟩
          · rw [if_neg hle] at hm
            subst hm
            obtain ⟨i0, hi0, hg, hpref⟩ := ih m0 h
            refine ⟨i0 + 1, by simpa using Nat.succ_lt_succ hi0, hg, ?_⟩
            intro j hj hj0
            cases j with
            | zero => simpa using (by omega : k m0 < k x)
            | succ j0 =>
                exact hpref j0 (by simpa using Nat.lt_of_succ_lt_succ hj)
                  (Nat.lt_of_succ_lt_succ hj0)

/-- C8: for every non-empty item list, `choose_keeper` returns the item
with the minimum `addedAt` timestamp, and among items with equal minimal
timestamps it returns the earliest in the original list order (no earlier
position holds an item with a less-or-equal timestamp). -/
theorem claim_C8_keeper_min (items : List Item) (h : items ≠ []) :
    ∃ kpr, choose_keeper items = some kpr ∧ kpr ∈ items ∧
      (∀ it ∈ items, item_added_at kpr ≤ item_added_at it) ∧
      ∃ i, ∃ hi : i < items.length, items.get ⟨i, hi⟩ = kpr ∧
        ∀ j, ∀ hj : j < items.length, j < i →
          item_added_at kpr < item_added_at (items.get ⟨j, hj⟩) := by
  obtain ⟨m, hm⟩ : ∃ m, firstMinBy item_added_at items = some m := by
    cases hf : firstMinBy item_added_at items with
    | none => exact absurd ((firstMinBy_eq_none _ _).1 hf) h
    | some m => exact ⟨m, rfl⟩
  exact ⟨m, by rw [choose_keeper_eq_firstMinBy]; exact hm,
    firstMinBy_mem _ _ _ hm, firstMinBy_le _ _ _ hm, firstMinBy_first _ _ _ hm⟩

/-- C8 witness: on addedAt values [30, 10, 20] the keeper has addedAt 10. -/
theorem claim_C8_witness :
    (([i7a, i7b, i7c] : List Item) ≠ []) ∧
    choose_keeper [i7a, i7b, i7c] = some i7b ∧
    item_added_at i7b = 10 ∧
    (∃ kpr, choose_keeper [i7a, i7b, i7c] = some kpr ∧ kpr ∈ [i7a, i7b, i7c] ∧
      (∀ it ∈ [i7a, i7b, i7c], item_added_at kpr ≤ item_added_at it) ∧
      ∃ i, ∃ hi : i < ([i7a, i7b, i7c] : List Item).length,
        ([i7a, i7b, i7c] : List Item).get ⟨i, hi⟩ = kpr ∧
        ∀ j, ∀ hj : j < ([i7a, i7b, i7c] : List Item).length, j < i →
          item_added_at kpr < item_added_at (([i7a, i7b, i7c] : List Item).get ⟨j, hj⟩)) :=
  ⟨by decide, by decide, by decide, claim_C8_keeper_min _ (by decide)⟩

/-- C10: an item whose `addedAt` is absent (or null) at both the item and
the media level extracts timestamp 0, and in a list where every other item
has a positive extracted timestamp the keeper selector picks an item with a
missing timestamp. -/
theorem claim_C10_missing_added_at (items : List Item) (it0 : Item)
    (h0 : it0 ∈ items) (ha : it0.addedAt = none) (hb : it0.media.addedAt = none)
    (hall : ∀ it ∈ items,
      (it.addedAt = none ∧ it.media.addedAt = none) ∨ 0 < item_added_at it) :
    item_added_at it0 = 0 ∧
    ∃ kpr, choose_keeper items = some kpr ∧
      kpr.addedAt = none ∧ kpr.media.addedAt = none := by
  have h0z : item_added_at it0 = 0 := by
    simp [item_added_at, ha, hb, orFalsyInt]
  refine ⟨h0z, ?_⟩
  obtain ⟨m, hm⟩ : ∃ m, firstMinBy item_added_at items = some m := by
    cases hf : firstMinBy item_added_at items with
    | none =>
        rw [(firstMinBy_eq_none _ _).1 hf] at h0
        exact absurd h0 (List.not_mem_nil it0)
    | some m => exact ⟨m, rfl⟩
  have hle := firstMinBy_le _ _ _ hm it0 h0
  rcases hall m (firstMinBy_mem _ _ _ hm) with ⟨h1, h2⟩ | hpos
  · exact ⟨m, by rw [choose_keeper_eq_firstMinBy]; exact hm, h1, h2⟩
  · rw [h0z] at hle; omega

/-- C10 witness: a group of one positively-timestamped item and one item
with no timestamp anywhere selects the timestampless item. -/
theorem claim_C10_witness :
    (iNoAdded ∈ [i7a, iNoAdded]) ∧ iNoAdded.addedAt = none ∧
    iNoAdded.media.addedAt = none ∧
    (∀ it ∈ [i7a, iNoAdded],
      (it.addedAt = none ∧ it.media.addedAt = none) ∨ 0 < item_added_at it) ∧
    (item_added_at iNoAdded = 0 ∧
      ∃ kpr, choose_keeper [i7a, iNoAdded] = some kpr ∧
        kpr.addedAt = none ∧ kpr.media.addedAt = none) :=
  ⟨by decide, by decide, by decide, by decide,
    claim_C10_missing_added_at _ _ (by decide) (by decide) (by decide) (by decide)⟩

/-! ### Deduplication, counting and the dominant format -/

lemma dedupAux_sublist : ∀ (l seen : List Str), (dedupAux l seen).Sublist l
  | [], _ => by simp [dedupAux]
  | x :: xs, seen => by
      simp only [dedupAux]
      split
      · exact (dedupAux_sublist xs seen).cons x
      · exact (dedupAux_sublist xs (x :: seen)).cons₂ x

lemma dedupAux_mem : ∀ (l seen : List Str) (x : Str),
    x ∈ dedupAux l seen ↔ (x ∈ l ∧ x ∉ seen)
  | [], seen, x => by simp [dedupAux]
  | y :: ys, seen, x => by
      simp only [dedupAux]
      split
      · rw [dedupAux_mem ys seen x]
        simp only [List.mem_cons]
        constructor
        · exact fun ⟨h1, h2⟩ => ⟨Or.inr h1, h2⟩
        · rintro ⟨h1 | h1, h2⟩
          · subst h1; exact absurd (by assumption) h2
          · exact ⟨h1, h2⟩
      · simp only [List.mem_cons, dedupAux_mem ys (y :: seen) x]
        constructor
        · rintro (rfl | ⟨h1, h2⟩)
          · exact ⟨Or.inl rfl, by assumption⟩
          · exact ⟨Or.inr h1, fun hx => h2 (Or.inr hx)⟩
        · rintro ⟨rfl | h1, h2⟩
          · exact Or.inl rfl
          · by_cases hxy : x = y
            · exact Or.inl hxy
            · exact Or.inr ⟨h1, by simp [hxy, h2]⟩

lemma dedupAux_nodup : ∀ (l seen : List Str), (dedupAux l seen).Nodup
  | [], _ => by simp [dedupAux]
  | y :: ys, seen => by
      simp only [dedupAux]
      split
      · exact dedupAux_nodup ys seen
      · refine List.nodup_cons.2 ⟨fun hy => ?_, dedupAux_nodup ys (y :: seen)⟩
        exact ((dedupAux_mem ys (y :: seen) y).1 hy).2 (List.mem_cons_self y seen)

lemma dedupFirst_sublist (l : List Str) : (dedupFirst l).Sublist l :=
  dedupAux_sublist l []

lemma dedupFirst_mem (l : List Str) (x : Str) : x ∈ dedupFirst l ↔ x ∈ l := by
  rw [dedupFirst, dedupAux_mem]
  simp

lemma dedupFirst_nodup (l : List Str) : (dedupFirst l).Nodup :=
  dedupAux_nodup l []

lemma dedupAux_eq_self : ∀ (l seen : List Str), l.Nodup →
    (∀ x ∈ l, x ∉ seen) → dedupAux l seen = l
  | [], _, _, _ => by simp [dedupAux]
  | y :: ys, seen, hn, hs => by
      simp only [dedupAux]
      rw [if_neg (hs y (List.mem_cons_self y ys))]
      congr 1
      refine dedupAux_eq_self ys (y :: seen) (List.nodup_cons.1 hn).2 ?_
      intro x hx
      simp only [List.mem_cons, not_or]
      exact ⟨fun hxy => (List.nodup_cons.1 hn).1 (hxy ▸ hx),
        hs x (List.mem_cons_of_mem y hx)⟩

lemma dedupFirst_eq_self (l : List Str) (h : l.Nodup) : dedupFirst l = l :=
  dedupAux_eq_self l [] h (by simp)

lemma count_le_one_of_nodup (l : List Str) (h : l.Nodup) (x : Str) :
    l.count x ≤ 1 := by
  induction l with
  | nil => simp
  | cons y ys ih =>
      rcases List.nodup_cons.1 h with ⟨hy, hys⟩
      rw [List.count_cons]
      by_cases hxy : y = x
      · subst hxy
        have hz : ys.count y = 0 := by
          rw [List.count_eq_zero]
          exact hy
        simp [hz]
      · simp only [beq_iff_eq, hxy, if_false]
        simpa using ih hys

lemma count_eq_one_of_nodup_mem : ∀ (l : List Str), l.Nodup → ∀ (x : Str),
    x ∈ l → l.count x = 1
  | [], _, x, hx => by simp at hx
  | y :: ys, h, x, hx => by
      rcases List.nodup_cons.1 h with ⟨hy, hys⟩
      rw [List.count_cons]
      rcases List.mem_cons.1 hx with h2 | h2
      · have hz : ys.count x = 0 := by
          rw [List.count_eq_zero, h2]
          exact hy
        subst h2
        simp [hz]
      · have hxy : ¬ y = x := fun he => hy (he ▸ h2)
        have hc := count_eq_one_of_nodup_mem ys hys x h2
        simp [hxy, hc]

lemma foldl_keepFirst (l : List Str) (a : Str) (ha : l.count a = 1)
    (hle : ∀ x : Str, l.count x ≤ 1) :
    ∀ t : List Str,
      t.foldl (fun acc x =>
        match acc with
        | none => some x
        | some b => if l.count b < l.count x then some x else acc) (some a) = some a
  | [] => rfl
  | x :: ts => by
      simp only [List.foldl_cons]
      have : ¬ l.count a < l.count x := by
        have := hle x; omega
      rw [if_neg this]
      exact foldl_keepFirst l a ha hle ts

lemma most_common1_of_nodup (l : List Str) (h : l.Nodup) :
    most_common1 l = l.head? := by
  unfold most_common1
  rw [dedupFirst_eq_self l h]
  cases l with
  | nil => rfl
  | cons x xs =>
      simp only [List.foldl_cons, List.head?_cons]
      exact foldl_keepFirst (x :: xs) x
        (count_eq_one_of_nodup_mem _ h x (List.mem_cons_self x xs))
        (count_le_one_of_nodup _ h) xs

lemma item_formats_ne_nil (it : Item) : item_formats it ≠ [] := by
  simp only [item_formats]
  split
  · simp
  · assumption

lemma item_formats_nodup (it : Item) : (item_formats it).Nodup := by
  simp only [item_formats]
  split
  · simp
  · exact dedupFirst_nodup _

lemma dominant_format_head (it : Item) :
    (item_formats it).head? = some (dominant_format it) := by
  unfold dominant_format
  rw [most_common1_of_nodup _ (item_formats_nodup it)]
  cases h : item_formats it with
  | nil => exact absurd h (item_formats_ne_nil it)
  | cons f fs => simp

/-- C3: `dominant_format` deduplicates the normalized candidate tokens
preserving first-occurrence order (an order-preserving duplicate-free
subsequence with the same membership), and then returns the token whose
count is maximal, the first-occurring one among those tied for the
maximum. -/
theorem claim_C3_dominant_format (it : Item) :
    (item_formats it).Nodup ∧
    ((fmt_candidates it).map norm_fmt ≠ [] →
      item_formats it = dedupFirst ((fmt_candidates it).map norm_fmt) ∧
      (item_formats it).Sublist ((fmt_candidates it).map norm_fmt) ∧
      (∀ f, f ∈ item_formats it ↔ f ∈ (fmt_candidates it).map norm_fmt)) ∧
    ∃ i, ∃ hi : i < (item_formats it).length,
      (item_formats it).get ⟨i, hi⟩ = dominant_format it ∧
      (∀ f ∈ item_formats it,
        (item_formats it).count f ≤ (item_formats it).count (dominant_format it)) ∧
      ∀ j, ∀ hj : j < (item_formats it).length, j < i →
        (item_formats it).count ((item_formats it).get ⟨j, hj⟩) <
          (item_formats it).count (dominant_format it) := by
  refine ⟨item_formats_nodup it, ?_, ?_⟩
  · intro h
    have hne : dedupFirst ((fmt_candidates it).map norm_fmt) ≠ [] := by
      cases hcand : (fmt_candidates it).map norm_fmt with
      | nil => exact absurd hcand h
      | cons c cs =>
          intro hd
          have hc : c ∈ dedupFirst (c :: cs) :=
            (dedupFirst_mem _ _).2 (List.mem_cons_self c cs)
          rw [hd] at hc
          exact absurd hc (List.not_mem_nil c)
    have heq : item_formats it = dedupFirst ((fmt_candidates it).map norm_fmt) := by
      simp only [item_formats]
      rw [if_neg hne]
    exact ⟨heq, heq ▸ dedupFirst_sublist _, fun f => heq ▸ dedupFirst_mem _ f⟩
  · have hnodup := item_formats_nodup it
    have hhead := dominant_format_head it
    cases hif : item_formats it with
    | nil => exact absurd hif (item_formats_ne_nil it)
    | cons d ds =>
        rw [hif] at hhead hnodup
        have hd : d = dominant_format it := by simpa using hhead
        refine ⟨0, by simp, by simpa using hd, ?_, ?_⟩
        · intro f hf
          have h1 := count_eq_one_of_nodup_mem _ hnodup f hf
          have h2 := count_eq_one_of_nodup_mem _ hnodup (dominant_format it)
            (hd ▸ List.mem_cons_self d ds)
          omega
        · intro j hj hj0
          exact absurd hj0 (Nat.not_lt_zero j)

/-- C3 witness: an item whose only candidate (via the `.MP4` extension)
normalizes to `m4a`. -/
theorem claim_C3_witness :
    ((fmt_candidates iMp4).map norm_fmt ≠ []) ∧
    dominant_format iMp4 = str "m4a" ∧
    ((item_formats iMp4).Nodup ∧
      ((fmt_candidates iMp4).map norm_fmt ≠ [] →
        item_formats iMp4 = dedupFirst ((fmt_candidates iMp4).map norm_fmt) ∧
        (item_formats iMp4).Sublist ((fmt_candidates iMp4).map norm_fmt) ∧
        (∀ f, f ∈ item_formats iMp4 ↔ f ∈ (fmt_candidates iMp4).map norm_fmt)) ∧
      ∃ i, ∃ hi : i < (item_formats iMp4).length,
        (item_formats iMp4).get ⟨i, hi⟩ = dominant_format iMp4 ∧
        (∀ f ∈ item_formats iMp4,
          (item_formats iMp4).count f ≤ (item_formats iMp4).count (dominant_format iMp4)) ∧
        ∀ j, ∀ hj : j < (item_formats iMp4).length, j < i →
          (item_formats iMp4).count ((item_formats iMp4).get ⟨j, hj⟩) <
            (item_formats iMp4).count (dominant_format iMp4)) :=
  ⟨by decide, by decide, claim_C3_dominant_format iMp4⟩

/-! ### Insertion-ordered grouping -/

lemma addToGroups_mem_self : ∀ (gs : List (Str × List Item)) (k : Str) (it : Item),
    ∃ l, (k, l) ∈ addToGroups gs k it ∧ it ∈ l
  | [], k, it => ⟨[it], by simp [addToGroups]⟩
  | (k0, l0) :: rest, k, it => by
      simp only [addToGroups]
      by_cases h : k0 = k
      · subst h
        exact ⟨l0 ++ [it], by simp⟩
      · obtain ⟨l, hl, hit⟩ := addToGroups_mem_self rest k it
        exact ⟨l, by simp [h, hl], hit⟩

lemma addToGroups_mem_pres : ∀ (gs : List (Str × List Item)) (k2 : Str) (it2 : Item)
    (k : Str) (l : List Item), (k, l) ∈ gs → ∀ it ∈ l,
    ∃ l2, (k, l2) ∈ addToGroups gs k2 it2 ∧ it ∈ l2
  | [], _, _, _, _, h, _, _ => absurd h (List.not_mem_nil _)
  | (k0, l0) :: rest, k2, it2, k, l, h, it, hit => by
      have hrec := fun h1 => addToGroups_mem_pres rest k2 it2 k l h1 it hit
      simp only [addToGroups]
      rcases List.mem_cons.1 h with h1 | h1
      · have hka : k = k0 := congrArg Prod.fst h1
        have hlb : l = l0 := congrArg Prod.snd h1
        by_cases hk : k0 = k2
        · refine ⟨l0 ++ [it2], ?_, List.mem_append_left _ (hlb ▸ hit)⟩
          rw [if_pos hk, hka]
          exact List.mem_cons_self _ _
        · refine ⟨l0, ?_, hlb ▸ hit⟩
          rw [if_neg hk, hka]
          exact List.mem_cons_self _ _
      · by_cases hk : k0 = k2
        · exact ⟨l, by rw [if_pos hk]; exact List.mem_cons_of_mem _ h1, hit⟩
        · obtain ⟨l2, hl2, hit2⟩ := hrec h1
          exact ⟨l2, by rw [if_neg hk]; exact List.mem_cons_of_mem _ hl2, hit2⟩

lemma foldl_addToGroups_mem : ∀ (pairs : List (Str × Item)) (gs : List (Str × List Item))
    (k : Str) (it : Item),
    ((k, it) ∈ pairs ∨ ∃ l, (k, l) ∈ gs ∧ it ∈ l) →
    ∃ l, (k, l) ∈ pairs.foldl (fun gs p => addToGroups gs p.1 p.2) gs ∧ it ∈ l
  | [], gs, k, it, h => by
      rcases h with h | h
      · exact absurd h (List.not_mem_nil _)
      · simpa using h
  | p :: ps, gs, k, it, h => by
      simp only [List.foldl_cons]
      apply foldl_addToGroups_mem ps
      rcases h with h | ⟨l, hl, hit⟩
      · rcases List.mem_cons.1 h with h1 | h1
        · right
          rw [← h1]
          exact addToGroups_mem_self gs k it
        · exact Or.inl h1
      · exact Or.inr (addToGroups_mem_pres gs p.1 p.2 k l hl it hit)

lemma groupPairs_mem (pairs : List (Str × Item)) (k : Str) (it : Item)
    (h : (k, it) ∈ pairs) : ∃ l, (k, l) ∈ groupPairs pairs ∧ it ∈ l :=
  foldl_addToGroups_mem pairs [] k it (Or.inl h)

lemma addToGroups_inv (P : Str → Item → Prop) :
    ∀ (gs : List (Str × List Item)) (k : Str) (it : Item),
    (∀ g ∈ gs, ∀ x ∈ g.2, P g.1 x) → P k it →
    ∀ g ∈ addToGroups gs k it, ∀ x ∈ g.2, P g.1 x
  | [], k, it, _, hk, g, hg, x, hx => by
      simp only [addToGroups, List.mem_singleton] at hg
      subst hg
      simp only [List.mem_singleton] at hx
      rw [hx]
      exact hk
  | (k0, l0) :: rest, k, it, hgs, hk, g, hg, x, hx => by
      have hrec := addToGroups_inv P rest k it
        (fun g2 hg2 => hgs g2 (List.mem_cons_of_mem _ hg2)) hk
      by_cases h : k0 = k
      · simp only [addToGroups, if_pos h] at hg
        rcases List.mem_cons.1 hg with h1 | h1
        · subst h1
          simp only [List.mem_append, List.mem_singleton] at hx
          rcases hx with hx | hx
          · exact hgs (k0, l0) (List.mem_cons_self _ _) x hx
          · rw [hx]
            rw [show ((k0, l0 ++ [it]) : Str × List Item).1 = k0 from rfl, h]
            exact hk
        · exact hgs g (List.mem_cons_of_mem _ h1) x hx
      · simp only [addToGroups, if_neg h] at hg
        rcases List.mem_cons.1 hg with h1 | h1
        · subst h1
          exact hgs (k0, l0) (List.mem_cons_self _ _) x hx
        · exact hrec g h1 x hx

/-- C9: format classification is total — `item_formats` never returns an
empty list; with zero resolvable candidates the item classifies as the
sentinel `unknown` (where the source would otherwise raise); and every
item, this edge case included, lands in the prune phase's format partition
under its dominant format. -/
theorem claim_C9_unknown_total (it : Item) :
    item_formats it ≠ [] ∧
    (fmt_candidates it = [] →
      item_formats it = [str "unknown"] ∧ dominant_format it = str "unknown") ∧
    ∀ group : List Item, it ∈ group →
      ∃ l, (dominant_format it, l) ∈ by_fmt_partition group ∧ it ∈ l := by
  refine ⟨item_formats_ne_nil it, ?_, ?_⟩
  · intro h
    have h1 : item_formats it = [str "unknown"] := by
      unfold item_formats
      rw [h]
      rfl
    refine ⟨h1, ?_⟩
    unfold dominant_format
    rw [h1]
    decide
  · intro group hg
    have hp : (dominant_format it, it) ∈ group.map (fun x => (dominant_format x, x)) :=
      List.mem_map.2 ⟨it, hg, rfl⟩
    exact groupPairs_mem _ _ _ hp

/-- C9 witness: an item with no library files and no tracks classifies as
`unknown` and appears in the `unknown` bucket of its group's partition. -/
theorem claim_C9_witness :
    fmt_candidates iEmpty = [] ∧
    item_formats iEmpty ≠ [] ∧
    item_formats iEmpty = [str "unknown"] ∧
    dominant_format iEmpty = str "unknown" ∧
    (iEmpty ∈ [iEmpty] →
      ∃ l, (dominant_format iEmpty, l) ∈ by_fmt_partition [iEmpty] ∧ iEmpty ∈ l) := by
  have C := claim_C9_unknown_total iEmpty
  exact ⟨by decide, C.1, (C.2.1 (by decide)).1, (C.2.1 (by decide)).2, C.2.2 [iEmpty]⟩

lemma foldl_addToGroups_inv (P : Str → Item → Prop) :
    ∀ (pairs : List (Str × Item)) (gs : List (Str × List Item)),
    (∀ g ∈ gs, ∀ x ∈ g.2, P g.1 x) → (∀ p ∈ pairs, P p.1 p.2) →
    ∀ g ∈ pairs.foldl (fun gs p => addToGroups gs p.1 p.2) gs, ∀ x ∈ g.2, P g.1 x
  | [], _, hgs, _, g, hg, x, hx => hgs g (by simpa using hg) x hx
  | p :: ps, gs, hgs, hps, g, hg, x, hx => by
      simp only [List.foldl_cons] at hg
      exact foldl_addToGroups_inv P ps (addToGroups gs p.1 p.2)
        (addToGroups_inv P gs p.1 p.2 hgs (hps p (List.mem_cons_self _ _)))
        (fun q hq => hps q (List.mem_cons_of_mem _ hq)) g hg x hx

lemma group_phase_inv (items : List Item) (by_ : Str) (uip cs : Bool) :
    ∀ g ∈ group_phase items by_ uip cs, ∀ x ∈ g.2,
      make_key x by_ uip cs = g.1 ∧ g.1 ≠ [] := by
  apply foldl_addToGroups_inv (fun k x => make_key x by_ uip cs = k ∧ k ≠ [])
  · intro g hg
    exact absurd hg (List.not_mem_nil g)
  · rintro ⟨pk, pa⟩ hp
    obtain ⟨a, ha, hfa⟩ := List.mem_filterMap.1 hp
    by_cases hk : make_key a by_ uip cs = []
    · simp [hk] at hfa
    · simp [hk] at hfa
      obtain ⟨h1, h2⟩ := hfa
      subst h2
      subst h1
      exact ⟨rfl, hk⟩

/-- C7: every group surfaced by the grouping phase has at least two
members, all members share the group's key under the active policy, and no
member's derived key is the empty string. -/
theorem claim_C7_dup_groups (items : List Item) (by_ : Str) (uip cs : Bool) :
    ∀ g ∈ dup_groups items by_ uip cs,
      2 ≤ g.2.length ∧ ∀ x ∈ g.2,
        make_key x by_ uip cs = g.1 ∧ make_key x by_ uip cs ≠ [] := by
  intro g hg
  rw [dup_groups] at hg
  obtain ⟨h1, h2⟩ := List.mem_filter.1 hg
  refine ⟨?_, ?_⟩
  · simp at h2
    omega
  · intro x hx
    obtain ⟨hk, hne⟩ := group_phase_inv items by_ uip cs g h1 x hx
    exact ⟨hk, by rw [hk]; exact hne⟩

/-- C7 witness: two items whose titles normalize identically form the one
surfaced duplicate group. -/
theorem claim_C7_witness :
    ((str "same book", [i7a, i7b]) ∈ dup_groups [i7a, i7b] (str "title") true false) ∧
    (2 ≤ ([i7a, i7b] : List Item).length ∧ ∀ x ∈ ([i7a, i7b] : List Item),
      make_key x (str "title") true false = str "same book" ∧
      make_key x (str "title") true false ≠ []) :=
  ⟨by decide, claim_C7_dup_groups [i7a, i7b] (str "title") true false
    (str "same book", [i7a, i7b]) (by decide)⟩

/-! ### Grouping-key injectivity -/

lemma make_key_title_author (it : Item) (uip cs : Bool) :
    make_key it (str "title+author") uip cs =
      title_for_group it uip cs ++ '|' :: '|' :: author_for_group it cs := rfl

lemma make_key_title_series (it : Item) (uip cs : Bool) :
    make_key it (str "title+series") uip cs =
      title_for_group it uip cs ++ '|' :: '|' :: series_for_group it cs := rfl

lemma append_delim_inj (t1 : Str) : ∀ (t2 a1 a2 : Str), '|' ∉ t1 → '|' ∉ t2 →
    (t1 ++ '|' :: '|' :: a1 = t2 ++ '|' :: '|' :: a2 ↔ t1 = t2 ∧ a1 = a2) := by
  induction t1 with
  | nil =>
      intro t2 a1 a2 h1 h2
      cases t2 with
      | nil => simp
      | cons c t2 =>
          constructor
          · intro h
            rw [List.nil_append, List.cons_append] at h
            injection h with hc htl
            refine absurd ?_ h2
            rw [hc]
            exact List.mem_cons_self c t2
          · rintro ⟨h, _⟩
            exact List.noConfusion h
  | cons c t1 ih =>
      intro t2 a1 a2 h1 h2
      cases t2 with
      | nil =>
          constructor
          · intro h
            rw [List.cons_append, List.nil_append] at h
            injection h with hc htl
            refine absurd ?_ h1
            rw [← hc]
            exact List.mem_cons_self c t1
          · rintro ⟨h, _⟩
            exact List.noConfusion h
      | cons d t2 =>
          have h1b : '|' ∉ t1 := fun hh => h1 (List.mem_cons_of_mem c hh)
          have h2b : '|' ∉ t2 := fun hh => h2 (List.mem_cons_of_mem d hh)
          simp only [List.cons_append, List.cons.injEq]
          rw [ih t2 a1 a2 h1b h2b]
          tauto

/-- C5 counterexample: the `||` delimiter survives normalization, so two
items with different titles can produce the same `title+author` key — the
claimed equivalence fails in the forward direction. -/
theorem claim_C5_counterexample :
    make_key i5a (str "title+author") true false =
      make_key i5b (str "title+author") true false ∧
    title_for_group i5a true false ≠ title_for_group i5b true false ∧
    '|' ∈ title_for_group i5a true false :=
  ⟨by decide, by decide, by decide⟩

/-- C5 amended: the normalizer preserves ASCII punctuation, so the `||`
delimiter can occur in normalized text and key construction is not
injective in general; restricted to items whose normalized titles contain
no `|` code point, keys under `title+author` (resp. `title+series`) are
equal exactly when both normalized components are equal. -/
theorem claim_C5_amended (it1 it2 : Item) (uip cs : Bool)
    (h1 : '|' ∉ title_for_group it1 uip cs)
    (h2 : '|' ∉ title_for_group it2 uip cs) :
    (make_key it1 (str "title+author") uip cs =
        make_key it2 (str "title+author") uip cs ↔
      title_for_group it1 uip cs = title_for_group it2 uip cs ∧
        author_for_group it1 cs = author_for_group it2 cs) ∧
    (make_key it1 (str "title+series") uip cs =
        make_key it2 (str "title+series") uip cs ↔
      title_for_group it1 uip cs = title_for_group it2 uip cs ∧
        series_for_group it1 cs = series_for_group it2 cs) := by
  constructor
  · rw [make_key_title_author, make_key_title_author]
    exact append_delim_inj _ _ _ _ h1 h2
  · rw [make_key_title_series, make_key_title_series]
    exact append_delim_inj _ _ _ _ h1 h2

/-- C5 witness: two pipe-free items with equal normalized titles and
different authors. -/
theorem claim_C5_witness :
    ('|' ∉ title_for_group i5c true false) ∧
    ('|' ∉ title_for_group i5d true false) ∧
    ((make_key i5c (str "title+author") true false =
        make_key i5d (str "title+author") true false ↔
      title_for_group i5c true false = title_for_group i5d true false ∧
        author_for_group i5c false = author_for_group i5d false) ∧
     (make_key i5c (str "title+series") true false =
        make_key i5d (str "title+series") true false ↔
      title_for_group i5c true false = title_for_group i5d true false ∧
        series_for_group i5c false = series_for_group i5d false)) :=
  ⟨by decide, by decide, claim_C5_amended i5c i5d true false (by decide) (by decide)⟩

/-! ### Simulate mode issues no real calls -/

lemma prune_file_op_sim (opts : Opts) (env : Env) (it : Item)
    (h : opts.apply = false) :
    ∀ e ∈ (prune_file_op opts env it).1, isRealEffect e = false := by
  intro e he
  unfold prune_file_op at he
  cases hf : item_folder_from_files it with
  | none =>
      rw [hf] at he
      simp at he
      rw [he]
      rfl
  | some folder =>
      rw [hf] at he
      dsimp only at he
      by_cases h1 : opts.delete_files = DeleteMode.off
      · rw [if_pos h1] at he
        simp at he
        rw [he]
        rfl
      · rw [if_neg h1] at he
        by_cases h2 : is_within_roots env.realpath
            (apply_path_map folder opts.path_map) opts.allow_roots = true
        · rw [if_neg (by simp [h2])] at he
          rw [h] at he
          simp only [Bool.false_eq_true, if_false] at he
          cases h3 : opts.delete_files <;> rw [h3] at he <;> simp at he
          · rw [he]
            rfl
          · rw [he]
            rfl
        · rw [if_pos h2] at he
          simp at he
          rw [he]
          rfl

lemma prune_abs_delete_sim (opts : Opts) (env : Env) (it : Item)
    (h : opts.apply = false) :
    ∀ e ∈ (prune_abs_delete opts env it).1, isRealEffect e = false := by
  intro e he
  unfold prune_abs_delete at he
  rw [h] at he
  simp at he
  rw [he]
  rfl

lemma prune_clean_tags_sim (opts : Opts) (keeper : Item)
    (h : opts.apply = false) :
    ∀ e ∈ prune_clean_tags opts keeper, isRealEffect e = false := by
  intro e he
  unfold prune_clean_tags at he
  rw [h] at he
  split at he
  · simp at he
    rw [he]
    rfl
  · simp at he

lemma prune_group_sim (opts : Opts) (env : Env) (preferred : List Str)
    (group : List Item) (h : opts.apply = false) :
    ∀ e ∈ (prune_group opts env preferred group).1, isRealEffect e = false := by
  intro e he
  unfold prune_group at he
  cases hk : prune_keeper opts env preferred group with
  | none =>
      rw [hk] at he
      simp at he
  | some keeper =>
      rw [hk] at he
      simp only [List.mem_append] at he
      rcases he with (he | he) | he
      · rw [List.map_map, List.mem_flatten] at he
        obtain ⟨es, hes, hee⟩ := he
        obtain ⟨itx, _, hres⟩ := List.mem_map.1 hes
        apply prune_file_op_sim opts env itx h
        rw [show (Prod.fst ∘ prune_file_op opts env) itx =
          (prune_file_op opts env itx).1 from rfl] at hres
        rw [hres]
        exact hee
      · rw [List.map_map, List.mem_flatten] at he
        obtain ⟨es, hes, hee⟩ := he
        obtain ⟨itx, _, hres⟩ := List.mem_map.1 hes
        apply prune_abs_delete_sim opts env itx h
        rw [show (Prod.fst ∘ prune_abs_delete opts env) itx =
          (prune_abs_delete opts env itx).1 from rfl] at hres
        rw [hres]
        exact hee
      · exact prune_clean_tags_sim opts keeper h e he

/-- C2: in simulate mode (`apply` disabled) the prune phase never issues a
real file move, file delete, catalog delete or batch tag update for any
duplicate group or removal candidate; every effect it emits is a recorded
dry-run outcome or a log line. -/
theorem claim_C2_simulate (opts : Opts) (env : Env) (groups : List (List Item))
    (h : opts.apply = false) :
    ∀ e ∈ (prune_phase opts env groups).1, isRealEffect e = false := by
  intro e he
  unfold prune_phase at he
  rw [List.mem_flatten] at he
  obtain ⟨es, hes, hee⟩ := he
  obtain ⟨g, _, hgs⟩ := List.mem_map.1 hes
  apply prune_group_sim opts env _ g h
  rw [hgs]
  exact hee

/-- C2 witness: a simulate-mode run over two groups (one with a removal
candidate whose folder resolves, one without) emits a non-empty effect
list no element of which is a real call. -/
theorem claim_C2_witness :
    opts2.apply = false ∧
    (prune_phase opts2 env1 [[iA, iB], [iA, iC]]).1 ≠ [] ∧
    ∀ e ∈ (prune_phase opts2 env1 [[iA, iB], [iA, iC]]).1, isRealEffect e = false :=
  ⟨rfl, by decide, claim_C2_simulate opts2 env1 [[iA, iB], [iA, iC]] rfl⟩

/-! ### Empty allow-roots and unresolvable folders in apply mode -/

/-- C1 (code evaluated at the failing input): with `delete_files = trash`,
an empty allow-root list and apply mode on, the prune phase still issues
the real trash-move call for the removal candidate — `_is_within_roots`
returns true for empty roots and no orchestration-level check disables the
file operation, contradicting the claim (and the startup warning the code
itself prints at tag_dupes.py:424, "file ops will be skipped for safety"). -/
theorem claim_C1_empty_roots_bug :
    opts1.delete_files = DeleteMode.trash ∧
    opts1.allow_roots = [] ∧
    opts1.apply = true ∧
    Effect.moveToTrash (str "/data/b") (str "/trash") [] ∈
      (prune_phase opts1 env1 [[iA, iB]]).1 :=
  ⟨rfl, rfl, rfl, by decide⟩

/-- C4 counterexample: the folder of removal candidate `iC` cannot be
resolved, yet in apply mode the catalog deletion for it is still issued;
the claim's "the catalog-deletion operation is skipped" is false on the
code (the catalog loop at tag_dupes.py:558 is separate from the file loop
whose `continue` skips only file operations). -/
theorem claim_C4_counterexample :
    item_folder_from_files iC = none ∧
    iC ∈ prune_removals opts1 env1 [str "mp3"] [iA, iC] ∧
    Effect.absDelete (str "C") ∈ (prune_group opts1 env1 [str "mp3"] [iA, iC]).1 :=
  ⟨by decide, by decide, by decide⟩

/-- C4 amended: for a removal candidate whose folder cannot be resolved,
the file operation is skipped for that item only (its file loop emits just
the warning) and the failure is counted in the error counter; processing
of sibling candidates continues (every sibling's file effects and catalog
call appear in the group's effect list); but the catalog-deletion call for
the item itself is still issued (or simulated), not skipped. -/
theorem claim_C4_amended (opts : Opts) (env : Env) (preferred : List Str)
    (group : List Item) (it : Item)
    (hmem : it ∈ prune_removals opts env preferred group)
    (hf : item_folder_from_files it = none) :
    prune_file_op opts env it = ([Effect.warnNoFolder it.id], 1) ∧
    (∀ e ∈ (prune_file_op opts env it).1, isRealEffect e = false) ∧
    1 ≤ (prune_group opts env preferred group).2 ∧
    ∀ sib ∈ prune_removals opts env preferred group,
      (∀ e ∈ (prune_file_op opts env sib).1,
        e ∈ (prune_group opts env preferred group).1) ∧
      (if opts.apply then Effect.absDelete sib.id else Effect.dryRunAbsDelete sib.id) ∈
        (prune_group opts env preferred group).1 := by
  unfold prune_removals at hmem
  cases hk : prune_keeper opts env preferred group with
  | none =>
      rw [hk] at hmem
      exact absurd hmem (List.not_mem_nil it)
  | some keeper =>
      rw [hk] at hmem
      have hfe : prune_file_op opts env it = ([Effect.warnNoFolder it.id], 1) := by
        unfold prune_file_op
        rw [hf]
      have heffects : (prune_group opts env preferred group).1 =
          (((group.filter (fun x => x.id ≠ keeper.id)).map
              (prune_file_op opts env)).map Prod.fst).flatten ++
          (((group.filter (fun x => x.id ≠ keeper.id)).map
              (prune_abs_delete opts env)).map Prod.fst).flatten ++
          prune_clean_tags opts keeper := by
        unfold prune_group
        rw [hk]
      have herr : (prune_group opts env preferred group).2 =
          (((group.filter (fun x => x.id ≠ keeper.id)).map
              (prune_file_op opts env)).map Prod.snd).sum +
          (((group.filter (fun x => x.id ≠ keeper.id)).map
              (prune_abs_delete opts env)).map Prod.snd).sum := by
        unfold prune_group
        rw [hk]
      refine ⟨hfe, ?_, ?_, ?_⟩
      · intro e he
        rw [hfe] at he
        simp at he
        rw [he]
        rfl
      · rw [herr]
        have h1mem : (1 : Nat) ∈ ((group.filter (fun x => x.id ≠ keeper.id)).map
            (prune_file_op opts env)).map Prod.snd := by
          rw [List.map_map]
          refine List.mem_map.2 ⟨it, hmem, ?_⟩
          show (prune_file_op opts env it).2 = 1
          rw [hfe]
        have hs := List.single_le_sum (fun (x : Nat) _ => Nat.zero_le x) 1 h1mem
        omega
      · intro sib hsib
        rw [prune_removals, hk] at hsib
        constructor
        · intro e he
          rw [heffects]
          refine List.mem_append_left _ (List.mem_append_left _ ?_)
          rw [List.map_map]
          exact List.mem_flatten.2 ⟨(prune_file_op opts env sib).1,
            List.mem_map.2 ⟨sib, hsib, rfl⟩, he⟩
        · rw [heffects]
          refine List.mem_append_left _ (List.mem_append_right _ ?_)
          rw [List.map_map]
          refine List.mem_flatten.2 ⟨(prune_abs_delete opts env sib).1,
            List.mem_map.2 ⟨sib, hsib, rfl⟩, ?_⟩
          cases ha : opts.apply <;> simp [prune_abs_delete, ha]

/-- C4 witness: the amended behaviour evaluated on the concrete group
`[iA, iC]` where `iC`'s folder does not resolve. -/
theorem claim_C4_witness :
    (iC ∈ prune_removals opts1 env1 [str "mp3"] [iA, iC]) ∧
    (item_folder_from_files iC = none) ∧
    (prune_file_op opts1 env1 iC = ([Effect.warnNoFolder iC.id], 1) ∧
     (∀ e ∈ (prune_file_op opts1 env1 iC).1, isRealEffect e = false) ∧
     1 ≤ (prune_group opts1 env1 [str "mp3"] [iA, iC]).2 ∧
     ∀ sib ∈ prune_removals opts1 env1 [str "mp3"] [iA, iC],
       (∀ e ∈ (prune_file_op opts1 env1 sib).1,
         e ∈ (prune_group opts1 env1 [str "mp3"] [iA, iC]).1) ∧
       (if opts1.apply then Effect.absDelete sib.id else Effect.dryRunAbsDelete sib.id) ∈
         (prune_group opts1 env1 [str "mp3"] [iA, iC]).1) :=
  ⟨by decide, by decide,
    claim_C4_amended opts1 env1 [str "mp3"] [iA, iC] iC (by decide) (by decide)⟩

/-! ### Normalizer idempotence -/

/-- C6 counterexample: U+00B4 ACUTE ACCENT NFKD-decomposes to a space plus
a combining acute accent, so `norm` maps it to a single space, which a
second application of `norm` collapses to the empty string — the
normalizer is not idempotent. -/
theorem claim_C6_counterexample :
    norm (some (norm (some ['´']) false)) false ≠ norm (some ['´']) false := by
  decide

lemma nfkdAscii_ascii (c : Char) (h : c.toNat < 128) : nfkdAscii c = [c] := by
  unfold nfkdAscii
  rw [if_pos h]

lemma flatten_nfkd_id : ∀ l : Str, (∀ c ∈ l, c.toNat < 128) →
    (l.map nfkdAscii).flatten = l
  | [], _ => rfl
  | c :: cs, h => by
      simp only [List.map_cons, List.flatten_cons]
      rw [nfkdAscii_ascii c (h c (List.mem_cons_self c cs)),
        flatten_nfkd_id cs (fun d hd => h d (List.mem_cons_of_mem c hd))]
      rfl

lemma ofNat_toNat_lower : ∀ n, n < 123 → 97 ≤ n → (Char.ofNat n).toNat = n := by
  decide

lemma pyLower_ascii (c : Char) (h : c.toNat < 128) : (pyLower c).toNat < 128 := by
  unfold pyLower
  split
  · rename_i h2
    have ht := ofNat_toNat_lower (c.toNat + 32) (by omega) (by omega)
    omega
  · exact h

lemma pyLower_space (c : Char) (h : c.toNat < 128) :
    pyIsSpace (pyLower c) = pyIsSpace c := by
  by_cases h2 : 65 ≤ c.toNat ∧ c.toNat ≤ 90
  · have hc : pyLower c = Char.ofNat (c.toNat + 32) := by
      unfold pyLower
      rw [if_pos h2]
    have ht := ofNat_toNat_lower (c.toNat + 32) (by omega) (by omega)
    have h1 : pyIsSpace (Char.ofNat (c.toNat + 32)) = false := by
      simp only [pyIsSpace, ht, decide_eq_false_iff_not]
      omega
    have h3 : pyIsSpace c = false := by
      simp only [pyIsSpace, decide_eq_false_iff_not]
      omega
    rw [hc, h1, h3]
  · unfold pyLower
    rw [if_neg h2]

lemma pyLower_idem (c : Char) (h : c.toNat < 128) :
    pyLower (pyLower c) = pyLower c := by
  by_cases h2 : 65 ≤ c.toNat ∧ c.toNat ≤ 90
  · have hc : pyLower c = Char.ofNat (c.toNat + 32) := by
      unfold pyLower
      rw [if_pos h2]
    have ht := ofNat_toNat_lower (c.toNat + 32) (by omega) (by omega)
    rw [hc]
    unfold pyLower
    rw [if_neg (by rw [ht]; omega)]
  · have hc : pyLower c = c := by
      unfold pyLower
      rw [if_neg h2]
    rw [hc, hc]

lemma splitWsAux_words : ∀ (l acc : Str), (∀ c ∈ acc, pyIsSpace c = false) →
    ∀ w ∈ splitWsAux l acc, w ≠ [] ∧ ∀ c ∈ w, pyIsSpace c = false
  | [], acc, hacc, w, hw => by
      simp only [splitWsAux] at hw
      split at hw
      · exact absurd hw (List.not_mem_nil w)
      · rename_i hne
        simp only [List.mem_singleton] at hw
        subst hw
        refine ⟨by simp [hne], ?_⟩
        intro c hc
        exact hacc c (List.mem_reverse.1 hc)
  | a :: rest, acc, hacc, w, hw => by
      simp only [splitWsAux] at hw
      by_cases hsp : pyIsSpace a = true
      · rw [if_pos hsp] at hw
        split at hw
        · exact splitWsAux_words rest [] (by simp) w hw
        · rename_i hne
          rcases List.mem_cons.1 hw with h1 | h1
          · subst h1
            refine ⟨by simp [hne], ?_⟩
            intro c hc
            exact hacc c (List.mem_reverse.1 hc)
          · exact splitWsAux_words rest [] (by simp) w h1
      · rw [if_neg hsp] at hw
        refine splitWsAux_words rest (a :: acc) ?_ w hw
        intro c hc
        rcases List.mem_cons.1 hc with h1 | h1
        · rw [h1]
          simpa using hsp
        · exact hacc c h1

lemma splitWsAux_chars : ∀ (l acc : Str) (w : Str), w ∈ splitWsAux l acc →
    ∀ c ∈ w, c ∈ l ∨ c ∈ acc
  | [], acc, w, hw, c, hc => by
      simp only [splitWsAux] at hw
      split at hw
      · exact absurd hw (List.not_mem_nil w)
      · simp only [List.mem_singleton] at hw
        subst hw
        exact Or.inr (List.mem_reverse.1 hc)
  | a :: rest, acc, w, hw, c, hc => by
      simp only [splitWsAux] at hw
      by_cases hsp : pyIsSpace a = true
      · rw [if_pos hsp] at hw
        have hout : c ∈ rest ∨ c ∈ acc → c ∈ a :: rest ∨ c ∈ acc := by
          rintro (h1 | h1)
          · exact Or.inl (List.mem_cons_of_mem a h1)
          · exact Or.inr h1
        split at hw
        · rcases splitWsAux_chars rest [] w hw c hc with h1 | h1
          · exact Or.inl (List.mem_cons_of_mem a h1)
          · exact absurd h1 (List.not_mem_nil c)
        · rcases List.mem_cons.1 hw with h1 | h1
          · subst h1
            exact Or.inr (List.mem_reverse.1 hc)
          · rcases splitWsAux_chars rest [] w h1 c hc with h2 | h2
            · exact Or.inl (List.mem_cons_of_mem a h2)
            · exact absurd h2 (List.not_mem_nil c)
      · rw [if_neg hsp] at hw
        rcases splitWsAux_chars rest (a :: acc) w hw c hc with h1 | h1
        · exact Or.inl (List.mem_cons_of_mem a h1)
        · rcases List.mem_cons.1 h1 with h2 | h2
          · exact Or.inl (h2 ▸ List.mem_cons_self a rest)
          · exact Or.inr h2

lemma joinSpace_chars : ∀ (ws : List Str) (c : Char), c ∈ joinSpace ws →
    c = ' ' ∨ ∃ w ∈ ws, c ∈ w
  | [], c, hc => absurd hc (List.not_mem_nil c)
  | [w], c, hc => Or.inr ⟨w, List.mem_cons_self _ _, hc⟩
  | w :: v :: ws, c, hc => by
      rw [show joinSpace (w :: v :: ws) = w ++ ' ' :: joinSpace (v :: ws) from rfl] at hc
      rcases List.mem_append.1 hc with h1 | h1
      · exact Or.inr ⟨w, List.mem_cons_self _ _, h1⟩
      · rcases List.mem_cons.1 h1 with h2 | h2
        · exact Or.inl h2
        · rcases joinSpace_chars (v :: ws) c h2 with h3 | ⟨u, hu, hcu⟩
          · exact Or.inl h3
          · exact Or.inr ⟨u, List.mem_cons_of_mem _ hu, hcu⟩

lemma splitWsAux_append_word : ∀ (w rest acc : Str),
    (∀ c ∈ w, pyIsSpace c = false) →
    splitWsAux (w ++ rest) acc = splitWsAux rest (w.reverse ++ acc)
  | [], rest, acc, _ => by simp
  | a :: w, rest, acc, hw => by
      simp only [List.cons_append, splitWsAux]
      rw [if_neg (by simp [hw a (List.mem_cons_self a w)])]
      show splitWsAux (w ++ rest) (a :: acc) = splitWsAux rest ((a :: w).reverse ++ acc)
      rw [splitWsAux_append_word w rest (a :: acc)
        (fun c hc => hw c (List.mem_cons_of_mem a hc))]
      congr 1
      simp

lemma splitWs_joinSpace : ∀ (ws : List Str),
    (∀ w ∈ ws, w ≠ [] ∧ ∀ c ∈ w, pyIsSpace c = false) →
    splitWs (joinSpace ws) = ws
  | [], _ => rfl
  | [w], h => by
      obtain ⟨hne, hchars⟩ := h w (List.mem_cons_self _ _)
      show splitWsAux (joinSpace [w]) [] = [w]
      rw [show joinSpace [w] = w from rfl, ← List.append_nil w,
        splitWsAux_append_word w [] [] hchars]
      simp [splitWsAux, hne]
  | w :: v :: ws, h => by
      obtain ⟨hne, hchars⟩ := h w (List.mem_cons_self _ _)
      show splitWsAux (joinSpace (w :: v :: ws)) [] = w :: v :: ws
      rw [show joinSpace (w :: v :: ws) = w ++ ' ' :: joinSpace (v :: ws) from rfl,
        splitWsAux_append_word w (' ' :: joinSpace (v :: ws)) [] hchars]
      simp only [splitWsAux]
      rw [if_pos (by decide), if_neg (by simp [hne])]
      have hrec := splitWs_joinSpace (v :: ws) (fun u hu => h u (List.mem_cons_of_mem _ hu))
      rw [show splitWs (joinSpace (v :: ws)) =
        splitWsAux (joinSpace (v :: ws)) [] from rfl] at hrec
      rw [hrec]
      simp

lemma joinSpace_map (f : Char → Char) (hf : f ' ' = ' ') : ∀ ws : List Str,
    joinSpace (ws.map (List.map f)) = List.map f (joinSpace ws)
  | [] => rfl
  | [w] => rfl
  | w :: v :: ws => by
      show List.map f w ++ ' ' :: joinSpace ((v :: ws).map (List.map f)) =
        List.map f (w ++ ' ' :: joinSpace (v :: ws))
      rw [joinSpace_map f hf (v :: ws), List.map_append, List.map_cons, hf]

lemma norm_some_true (s : Str) :
    norm (some s) true = ((joinSpace (splitWs s)).map nfkdAscii).flatten := rfl

lemma norm_some_false (s : Str) :
    norm (some s) false =
      ((lowerStr (joinSpace (splitWs s))).map nfkdAscii).flatten := rfl

/-- C6 amended: the normalizer is not idempotent in general (see the
counterexample), but it is idempotent on every input whose code points are
all ASCII, for either case-sensitivity flag. -/
theorem claim_C6_amended (s : Str) (cs : Bool)
    (hs : ∀ c ∈ s, c.toNat < 128) :
    norm (some (norm (some s) cs)) cs = norm (some s) cs := by
  have hnice : ∀ w ∈ splitWs s, w ≠ [] ∧ ∀ c ∈ w, pyIsSpace c = false :=
    splitWsAux_words s [] (by simp)
  have hasciiw : ∀ w ∈ splitWs s, ∀ c ∈ w, c.toNat < 128 := by
    intro w hw c hc
    rcases splitWsAux_chars s [] w hw c hc with h1 | h1
    · exact hs c h1
    · exact absurd h1 (List.not_mem_nil c)
  have hasciiu : ∀ c ∈ joinSpace (splitWs s), c.toNat < 128 := by
    intro c hc
    rcases joinSpace_chars (splitWs s) c hc with h1 | ⟨w, hw, hcw⟩
    · rw [h1]
      decide
    · exact hasciiw w hw c hcw
  cases cs with
  | true =>
      rw [norm_some_true s, flatten_nfkd_id _ hasciiu, norm_some_true,
        show splitWs (joinSpace (splitWs s)) = splitWs s from
          splitWs_joinSpace _ hnice,
        flatten_nfkd_id _ hasciiu]
  | false =>
      have hasciiv : ∀ c ∈ lowerStr (joinSpace (splitWs s)), c.toNat < 128 := by
        intro c hc
        obtain ⟨d, hd, hdc⟩ := List.mem_map.1 hc
        rw [← hdc]
        exact pyLower_ascii d (hasciiu d hd)
      have hv : lowerStr (joinSpace (splitWs s)) =
          joinSpace ((splitWs s).map (List.map pyLower)) := by
        rw [joinSpace_map pyLower (by decide)]
        rfl
      have hnice2 : ∀ w ∈ (splitWs s).map (List.map pyLower),
          w ≠ [] ∧ ∀ c ∈ w, pyIsSpace c = false := by
        intro w hw
        obtain ⟨u, hu, huw⟩ := List.mem_map.1 hw
        obtain ⟨hne, _⟩ := hnice u hu
        constructor
        · rw [← huw]
          simp [hne]
        · intro c hc
          rw [← huw] at hc
          obtain ⟨d, hd, hdc⟩ := List.mem_map.1 hc
          rw [← hdc, pyLower_space d (hasciiw u hu d hd)]
          exact (hnice u hu).2 d hd
      have hsplitv : splitWs (lowerStr (joinSpace (splitWs s))) =
          (splitWs s).map (List.map pyLower) := by
        rw [hv]
        exact splitWs_joinSpace _ hnice2
      have hjoinv : joinSpace (splitWs (lowerStr (joinSpace (splitWs s)))) =
          lowerStr (joinSpace (splitWs s)) := by
        rw [hsplitv, ← hv]
      have hlowv : lowerStr (lowerStr (joinSpace (splitWs s))) =
          lowerStr (joinSpace (splitWs s)) := by
        show List.map pyLower (List.map pyLower (joinSpace (splitWs s))) =
          List.map pyLower (joinSpace (splitWs s))
        rw [List.map_map]
        apply List.map_congr_left
        intro d hd
        exact pyLower_idem d (hasciiu d hd)
      rw [norm_some_false s, flatten_nfkd_id _ hasciiv, norm_some_false, hjoinv,
        hlowv, flatten_nfkd_id _ hasciiv]

/-- C6 witness: idempotence evaluated on an ASCII string with mixed case
and repeated whitespace. -/
theorem claim_C6_witness :
    (∀ c ∈ str "  Foo   Bar ", c.toNat < 128) ∧
    norm (some (str "  Foo   Bar ")) false = str "foo bar" ∧
    norm (some (norm (some (str "  Foo   Bar ")) false)) false =
      norm (some (str "  Foo   Bar ")) false :=
  ⟨by decide, by decide, claim_C6_amended (str "  Foo   Bar ") false (by decide)⟩

end TagDupes
